import Mathlib

/-!
Shallow embedding of the mining-accrual core of `backend/server.py` from the
Profit-pilot-fullstack repository.

Modelling conventions:
* Monetary amounts (Python floats) are modelled as rationals, so the arithmetic
  of the source is captured exactly.
* Timestamps (`datetime.utcnow()`) are modelled as a `Nat` parameter `now`
  supplied to each operation.
* The MongoDB collections become lists inside `LedgerState`.  `update_one`
  becomes `updateFirst` (MongoDB updates the first matching document);
  `$inc`, `$set` and `$push` become the corresponding record updates; an
  `update_one` that matches nothing leaves the list unchanged and reports
  `modified_count = 0`.
* Store failures are injected through explicit parameters: `tokenFail t`
  models the store raising on the first write of the per-token `try` block
  (the token `update_one`), so nothing for that token is applied and the
  `except` branch records one error message; `catastrophic` models an
  exception raised before the token list is read (for example the `find` on
  the users collection failing), which lands in the outer `except` branch.
* Random `cycle_id` UUID strings and the duration/timestamp bookkeeping of
  the mining log are omitted: no claim mentions them.  The failed-path log
  document in the source has no `errors_count` field; it is modelled as `0`.
-/

namespace ProfitPilot

abbrev Money := ℚ

/-- One entry of a token `mining_history` list (server.py lines 686-693). -/
structure MiningEntry where
  amount : Money
  timestamp : Nat
  boost_level : Nat
  deriving DecidableEq

/-- One entry of a token `boost_history` list (server.py lines 1723-1730 and 2464-2473). -/
structure BoostEntry where
  timestamp : Nat
  cost_usd : Money
  new_level : Nat
  boost_type : String
  deriving DecidableEq

/-- A token document (server.py lines 1231-1243). -/
structure Token where
  token_id : Nat
  owner_id : Nat
  name : String
  boost_level : Nat
  total_earnings : Money
  last_mining : Nat
  active : Bool
  mining_history : List MiningEntry
  boost_history : List BoostEntry
  deriving DecidableEq

/-- The claim-relevant fields of a user document. -/
structure User where
  user_id : Nat
  is_admin : Bool
  total_earnings : Money
  tokens_owned : Nat
  boosts_used : Nat
  deriving DecidableEq

/-- The claim-relevant fields of a `mining_logs` document
(server.py lines 734-744 and 765-773). -/
structure MiningLog where
  tokens_processed : Nat
  total_earnings_distributed : Money
  errors_count : Nat
  status : String
  error : Option String
  deriving DecidableEq

/-- A notification document, reduced to the addressee and title. -/
structure Notification where
  user_id : Nat
  title : String
  deriving DecidableEq

/-- The ledger store: the collections the accrual core touches. -/
structure LedgerState where
  users : List User
  tokens : List Token
  mining_logs : List MiningLog
  notifications : List Notification
  deriving DecidableEq

/-- `self.base_earning = 0.70` (server.py line 645). -/
def base_earning : Money := 7 / 10

/-- `self.mining_interval = 7200` (server.py line 646). -/
def mining_interval : Nat := 7200

/-- `await asyncio.sleep(600)` on a scheduler error (server.py line 796). -/
def error_backoff : Nat := 600

/-- MongoDB `update_one`: apply `f` to the first element satisfying `p`. -/
def updateFirst (p : α → Bool) (f : α → α) : List α → List α
  | [] => []
  | x :: xs => if p x then f x :: xs else x :: updateFirst p f xs

/-- `admin_user_ids` (server.py lines 664-667): ids of all users with
`is_admin = true`. -/
def admin_user_ids (users : List User) : List Nat :=
  (users.filter (fun u => u.is_admin)).map (fun u => u.user_id)

/-- The selection predicate of the token query (server.py lines 669-672):
`active = true` and `owner_id` not among the admin user ids. -/
def eligible (admin_ids : List Nat) (t : Token) : Bool :=
  t.active && !(admin_ids.contains t.owner_id)

/-- The token list fetched at cycle start (server.py lines 669-672). -/
def eligibleTokens (st : LedgerState) : List Token :=
  st.tokens.filter (eligible (admin_user_ids st.users))

/-- `earning = self.base_earning * (2 ** boost_level)` (server.py line 678). -/
def tokenEarning (t : Token) : Money := base_earning * 2 ^ t.boost_level

/-- The earning formula as a function of the boost level alone. -/
def earningAt (b : Nat) : Money := base_earning * 2 ^ b

/-- The token `update_one` of the mining loop (server.py lines 681-695):
`$inc` on `total_earnings`, `$set` on `last_mining`, `$push` of one
mining-history entry. -/
def minedToken (now : Nat) (t : Token) : Token :=
  { t with
    total_earnings := t.total_earnings + tokenEarning t
    last_mining := now
    mining_history := t.mining_history ++
      [{ amount := tokenEarning t, timestamp := now, boost_level := t.boost_level }] }

/-- The `mining_stats` accumulator of `process_mining_cycle`
(server.py lines 652-658), together with the evolving store state.
Errors are recorded as the ids of the failing tokens (the source appends a
message string naming the same token id). -/
structure CycleAcc where
  st : LedgerState
  tokens_processed : Nat
  total_earnings_distributed : Money
  errors : List Nat

/-- One iteration of the per-token loop (server.py lines 674-723).
If the store raises on the token update (`tokenFail t`), the `except`
branch appends one error and nothing else changes.  Otherwise the token is
credited, the owner `update_one` increments the owner (matching nothing if
the owner record is missing), a notification is created exactly when the
owner update modified a document (`modified_count > 0`, server.py line 703,
which with a positive `$inc` means: a matching user exists), and the
success counters advance. -/
def processToken (now : Nat) (tokenFail : Token → Bool) (acc : CycleAcc) (t : Token) :
    CycleAcc :=
  if tokenFail t then
    { acc with errors := acc.errors ++ [t.token_id] }
  else
    let earning := tokenEarning t
    let tokens1 := updateFirst (fun x => x.token_id == t.token_id) (minedToken now)
      acc.st.tokens
    let users1 := updateFirst (fun u => u.user_id == t.owner_id)
      (fun u => { u with total_earnings := u.total_earnings + earning }) acc.st.users
    let notifs1 :=
      if acc.st.users.any (fun u => u.user_id == t.owner_id) then
        acc.st.notifications ++ [{ user_id := t.owner_id, title := "Mining Completed" }]
      else acc.st.notifications
    { st := { acc.st with tokens := tokens1, users := users1, notifications := notifs1 }
      tokens_processed := acc.tokens_processed + 1
      total_earnings_distributed := acc.total_earnings_distributed + earning
      errors := acc.errors }

/-- `MiningManager.process_mining_cycle` (server.py lines 649-775).
On the catastrophic path (exception before the token list is read) the
outer `except` branch writes one failed mining log (lines 765-773).
Otherwise the per-token loop runs over the eligible tokens and one summary
mining log is inserted (lines 734-744), with status `success` exactly when
the error list is empty (line 743). -/
def process_mining_cycle (now : Nat) (tokenFail : Token → Bool) (catastrophic : Bool)
    (st : LedgerState) : LedgerState :=
  if catastrophic then
    { st with mining_logs := st.mining_logs ++
        [{ tokens_processed := 0
           total_earnings_distributed := 0
           errors_count := 0
           status := "failed"
           error := some "Critical mining error" }] }
  else
    let acc := (eligibleTokens st).foldl (processToken now tokenFail)
      { st := st, tokens_processed := 0, total_earnings_distributed := 0, errors := [] }
    { acc.st with mining_logs := acc.st.mining_logs ++
        [{ tokens_processed := acc.tokens_processed
           total_earnings_distributed := acc.total_earnings_distributed
           errors_count := acc.errors.length
           status := if acc.errors.isEmpty then "success" else "partial_success"
           error := none }] }

/-- The environment of one cycle invocation: its wall-clock time and the
failures the store injects during it. -/
structure CycleEnv where
  now : Nat
  tokenFail : Token → Bool
  catastrophic : Bool

/-- Run a sequence of accrual cycles, each under its own environment. -/
def runCycles (envs : List CycleEnv) (st : LedgerState) : LedgerState :=
  envs.foldl (fun s e => process_mining_cycle e.now e.tokenFail e.catastrophic s) st

/-- The scheduler state (server.py lines 777-799): `is_running` true while
the loop iterates, false once it exits. -/
inductive SchedState where
  | Running
  | Stopped
  deriving DecidableEq

/-- What one iteration of the scheduler loop observes: the cycle call and
the following sleep complete (`cycleOk`), an exception escapes them
(`cycleError`), the task is cancelled (`cancelled`,
`asyncio.CancelledError`), or `stop_mining` cleared `is_running`
(`stopRequest`). -/
inductive SchedEvent where
  | cycleOk
  | cycleError
  | cancelled
  | stopRequest
  deriving DecidableEq

/-- One iteration of `mining_scheduler` (server.py lines 782-796): the next
state and the seconds slept before the next iteration. -/
def schedulerStep : SchedState → SchedEvent → SchedState × Nat
  | SchedState.Running, SchedEvent.cycleOk => (SchedState.Running, mining_interval)
  | SchedState.Running, SchedEvent.cycleError => (SchedState.Running, error_backoff)
  | SchedState.Running, SchedEvent.cancelled => (SchedState.Stopped, 0)
  | SchedState.Running, SchedEvent.stopRequest => (SchedState.Stopped, 0)
  | SchedState.Stopped, _ => (SchedState.Stopped, 0)

/-- The scheduler loop over a sequence of observed events, starting in the
`Running` state entered at server startup (server.py line 780). -/
def schedulerRun (evs : List SchedEvent) : SchedState :=
  evs.foldl (fun s e => (schedulerStep s e).1) SchedState.Running

/-- `amount_usd = 3.0 * (2 ** token["boost_level"])`: the boost price at
the payment boundary (server.py line 1508). -/
def boostPrice (boost_level : Nat) : Money := 3 * 2 ^ boost_level

/-- The starter token document of `_create_first_token`
(server.py lines 1231-1243). -/
def starterToken (token_id user_id now : Nat) : Token :=
  { token_id := token_id
    owner_id := user_id
    name := "ProfitToken #1"
    boost_level := 0
    total_earnings := 0
    last_mining := now
    active := true
    mining_history := []
    boost_history := [] }

/-- The token document of `_process_token_purchase` (server.py lines 1678-1691). -/
def purchasedToken (token_id user_id : Nat) (nm : String) (now : Nat) : Token :=
  { token_id := token_id
    owner_id := user_id
    name := nm
    boost_level := 0
    total_earnings := 0
    last_mining := now
    active := true
    mining_history := []
    boost_history := [] }

/-- The token document of `admin_grant_token_to_user` (server.py lines 2369-2383). -/
def adminGrantedToken (token_id user_id : Nat) (nm : String) (now : Nat) : Token :=
  { token_id := token_id
    owner_id := user_id
    name := nm
    boost_level := 0
    total_earnings := 0
    last_mining := now
    active := true
    mining_history := []
    boost_history := [] }

/-- `_create_first_token` (server.py lines 1227-1252): insert the starter
token and increment the owner `tokens_owned`. -/
def create_first_token (token_id user_id now : Nat) (st : LedgerState) : LedgerState :=
  { st with
    tokens := st.tokens ++ [starterToken token_id user_id now]
    users := updateFirst (fun u => u.user_id == user_id)
      (fun u => { u with tokens_owned := u.tokens_owned + 1 }) st.users }

/-- The boost `update_one` shared by the paid and the admin boost paths
(server.py lines 1719-1732 and 2460-2476): `$inc` the boost level and
`$push` one boost-history entry; earnings and mining history are untouched. -/
def boostedToken (now : Nat) (cost_usd : Money) (boost_type : String) (t : Token) : Token :=
  { t with
    boost_level := t.boost_level + 1
    boost_history := t.boost_history ++
      [{ timestamp := now, cost_usd := cost_usd, new_level := t.boost_level + 1,
         boost_type := boost_type }] }

/-- `_process_token_boost` (server.py lines 1705-1743): if the token exists
and belongs to the payer, boost it (update filtered by `token_id`, line
1720) and increment the payer `boosts_used`; otherwise an HTTP 404 is
raised and the store is unchanged. -/
def process_token_boost (now user_id token_id : Nat) (amount_usd : Money)
    (st : LedgerState) : LedgerState :=
  match st.tokens.find? (fun t => t.token_id == token_id && t.owner_id == user_id) with
  | none => st
  | some _ =>
    { st with
      tokens := updateFirst (fun t => t.token_id == token_id)
        (boostedToken now amount_usd "paid") st.tokens
      users := updateFirst (fun u => u.user_id == user_id)
        (fun u => { u with boosts_used := u.boosts_used + 1 }) st.users }

/-- `admin_boost_user_token` (server.py lines 2440-2476): boost any
existing token whose owner exists and is not an admin, at cost 0. -/
def admin_boost_user_token (now token_id : Nat) (st : LedgerState) : LedgerState :=
  match st.tokens.find? (fun t => t.token_id == token_id) with
  | none => st
  | some tok =>
    match st.users.find? (fun u => u.user_id == tok.owner_id) with
    | none => st
    | some owner =>
      if owner.is_admin then st
      else
        { st with
          tokens := updateFirst (fun t => t.token_id == token_id)
            (boostedToken now 0 "admin_granted") st.tokens }

/-- Lookup of a token document by id (`find_one` on the tokens collection). -/
def findToken (st : LedgerState) (tid : Nat) : Option Token :=
  st.tokens.find? (fun t => t.token_id == tid)

/-- Lookup of a user document by id (`find_one` on the users collection). -/
def findUser (st : LedgerState) (uid : Nat) : Option User :=
  st.users.find? (fun u => u.user_id == uid)

/-- The mining log written by the most recent cycle invocation. -/
def lastLog (st : LedgerState) : Option MiningLog :=
  st.mining_logs.getLast?

/-- The total amount the cycle credits to the user with id `uid`: one
`$inc` per non-failing eligible token owned by `uid`. -/
def ownerCredit (fail : Token → Bool) (uid : Nat) (ts : List Token) : Money :=
  ((ts.filter (fun t => !fail t && t.owner_id == uid)).map tokenEarning).sum

/-- The invariant of claim C9: a token total equals the sum of its
mining-history amounts. -/
def tokenInv (t : Token) : Prop :=
  t.total_earnings = (t.mining_history.map MiningEntry.amount).sum

/-- The effect of one loop iteration on the tokens collection alone. -/
def tokUpd (now : Nat) (fail : Token → Bool) (cur : List Token) (t : Token) : List Token :=
  if fail t then cur
  else updateFirst (fun x => x.token_id == t.token_id) (minedToken now) cur

/-- The effect of one loop iteration on the users collection alone. -/
def usrUpd (fail : Token → Bool) (cur : List User) (t : Token) : List User :=
  if fail t then cur
  else updateFirst (fun u => u.user_id == t.owner_id)
    (fun u => { u with total_earnings := u.total_earnings + tokenEarning t }) cur

/-- A concrete non-admin user, used to instantiate proved claims. -/
def exOwner : User :=
  { user_id := 1, is_admin := false, total_earnings := 0, tokens_owned := 2, boosts_used := 0 }

/-- A concrete admin user. -/
def exAdmin : User :=
  { user_id := 2, is_admin := true, total_earnings := 0, tokens_owned := 0, boosts_used := 0 }

/-- A concrete active token owned by `exOwner`. -/
def exTok (tid bl : Nat) : Token :=
  { token_id := tid, owner_id := 1, name := "ProfitToken #1", boost_level := bl,
    total_earnings := 0, last_mining := 0, active := true,
    mining_history := [], boost_history := [] }

/-- A concrete deactivated token. -/
def inactiveTok : Token := { exTok 30 0 with active := false }

/-- A concrete active token owned by the admin user. -/
def adminTok : Token := { exTok 31 4 with owner_id := 2 }

/-- A concrete token whose owner id matches no user record. -/
def orphanTok : Token := { exTok 20 0 with owner_id := 99 }

/-- A concrete token with one prior mining event on record. -/
def histTok : Token :=
  { exTok 40 1 with
    total_earnings := 7 / 10
    mining_history := [{ amount := 7 / 10, timestamp := 0, boost_level := 0 }] }

/-- State for instantiating C1: one eligible boost-level-3 token. -/
def C1st : LedgerState :=
  { users := [exOwner, exAdmin], tokens := [exTok 10 3], mining_logs := [], notifications := [] }

/-- State for instantiating C2: an eligible, an inactive and an admin-owned token. -/
def C2st : LedgerState :=
  { users := [exOwner, exAdmin], tokens := [exTok 10 0, inactiveTok, adminTok],
    mining_logs := [], notifications := [] }

/-- State refuting C3 as literally stated: one user owning two eligible tokens. -/
def C3st : LedgerState :=
  { users := [exOwner], tokens := [exTok 10 0, exTok 11 0], mining_logs := [], notifications := [] }

/-- State for instantiating C4: three eligible tokens, one of which will fail. -/
def C4st : LedgerState :=
  { users := [exOwner], tokens := [exTok 10 0, exTok 11 1, exTok 12 2],
    mining_logs := [], notifications := [] }

/-- State refuting C6 as literally stated: one eligible token with no owner record. -/
def C6st : LedgerState :=
  { users := [exOwner], tokens := [orphanTok], mining_logs := [], notifications := [] }

/-- State for instantiating C9: a token already carrying mining history. -/
def C9st : LedgerState :=
  { users := [exOwner], tokens := [histTok], mining_logs := [], notifications := [] }

@[simp]
theorem minedToken_token_id (now : Nat) (t : Token) :
    (minedToken now t).token_id = t.token_id := rfl

@[simp]
theorem minedToken_owner_id (now : Nat) (t : Token) :
    (minedToken now t).owner_id = t.owner_id := rfl

@[simp]
theorem minedToken_active (now : Nat) (t : Token) :
    (minedToken now t).active = t.active := rfl

@[simp]
theorem minedToken_boost_level (now : Nat) (t : Token) :
    (minedToken now t).boost_level = t.boost_level := rfl

/-- `find?` by key commutes with mapping a key-preserving function. -/
theorem find?_map_key {α : Type} (key : α → Nat) (g : α → α)
    (hg : ∀ x, key (g x) = key x) (k : Nat) (l : List α) :
    (l.map g).find? (fun x => key x == k) = (l.find? (fun x => key x == k)).map g := by
  induction l with
  | nil => rfl
  | cons x xs ih =>
    by_cases h : key x = k
    · simp [List.find?_cons, hg, h]
    · simp only [List.map_cons, List.find?_cons, hg,
        beq_eq_false_iff_ne.mpr h, ih]

/-- Under distinct keys, searching for the key of a member finds that member. -/
theorem find?_self_of_nodup {α : Type} (key : α → Nat) (l : List α) (x : α)
    (hnd : (l.map key).Nodup) (hx : x ∈ l) :
    l.find? (fun y => key y == key x) = some x := by
  induction l with
  | nil => cases hx
  | cons a xs ih =>
    simp only [List.map_cons, List.nodup_cons] at hnd
    obtain ⟨ha, hnd⟩ := hnd
    rcases List.mem_cons.mp hx with rfl | hx2
    · simp [List.find?_cons]
    · have hne : key a ≠ key x := by
        intro he
        exact ha (he ▸ List.mem_map_of_mem key hx2)
      simp only [List.find?_cons, beq_eq_false_iff_ne.mpr hne]
      exact ih hnd hx2

/-- Under distinct keys, `update_one` equals a pointwise conditional map. -/
theorem updateFirst_eq_map {α : Type} (key : α → Nat) (k : Nat) (f : α → α) (l : List α)
    (hnd : (l.map key).Nodup) :
    updateFirst (fun x => key x == k) f l
      = l.map (fun x => if key x == k then f x else x) := by
  induction l with
  | nil => rfl
  | cons x xs ih =>
    simp only [List.map_cons, List.nodup_cons] at hnd
    obtain ⟨hx, hnd⟩ := hnd
    by_cases h : key x = k
    · simp only [updateFirst, beq_iff_eq.mpr h, if_pos trivial, List.map_cons, if_true]
      have hid : ∀ y ∈ xs, (if key y == k then f y else y) = y := by
        intro y hy
        have hne : key y ≠ k := by
          intro he
          exact hx (by rw [h, ← he]; exact List.mem_map_of_mem key hy)
        simp [beq_eq_false_iff_ne.mpr hne]
      rw [List.map_congr_left hid]
      simp
    · simp only [updateFirst, beq_eq_false_iff_ne.mpr h, List.map_cons, if_false,
        Bool.false_eq_true]
      exact congrArg _ (ih hnd)

theorem updateFirst_cons_pos {α : Type} (p : α → Bool) (f : α → α) (x : α) (xs : List α)
    (h : p x = true) : updateFirst p f (x :: xs) = f x :: xs := by
  simp [updateFirst, h]

theorem updateFirst_cons_neg {α : Type} (p : α → Bool) (f : α → α) (x : α) (xs : List α)
    (h : p x = false) : updateFirst p f (x :: xs) = x :: updateFirst p f xs := by
  simp [updateFirst, h]

theorem processToken_st_tokens (now : Nat) (fail : Token → Bool) (acc : CycleAcc) (t : Token) :
    (processToken now fail acc t).st.tokens = tokUpd now fail acc.st.tokens t := by
  unfold processToken tokUpd
  by_cases h : fail t <;> simp [h]

theorem processToken_st_users (now : Nat) (fail : Token → Bool) (acc : CycleAcc) (t : Token) :
    (processToken now fail acc t).st.users = usrUpd fail acc.st.users t := by
  unfold processToken usrUpd
  by_cases h : fail t <;> simp [h]

theorem processToken_st_logs (now : Nat) (fail : Token → Bool) (acc : CycleAcc) (t : Token) :
    (processToken now fail acc t).st.mining_logs = acc.st.mining_logs := by
  unfold processToken
  by_cases h : fail t <;> simp [h]

theorem processToken_processed (now : Nat) (fail : Token → Bool) (acc : CycleAcc) (t : Token) :
    (processToken now fail acc t).tokens_processed
      = acc.tokens_processed + (if fail t then 0 else 1) := by
  unfold processToken
  by_cases h : fail t <;> simp [h]

theorem processToken_distributed (now : Nat) (fail : Token → Bool) (acc : CycleAcc) (t : Token) :
    (processToken now fail acc t).total_earnings_distributed
      = acc.total_earnings_distributed + (if fail t then 0 else tokenEarning t) := by
  unfold processToken
  by_cases h : fail t <;> simp [h]

theorem processToken_errors (now : Nat) (fail : Token → Bool) (acc : CycleAcc) (t : Token) :
    (processToken now fail acc t).errors
      = acc.errors ++ (if fail t then [t.token_id] else []) := by
  unfold processToken
  by_cases h : fail t <;> simp [h]

theorem foldl_processToken_tokens (now : Nat) (fail : Token → Bool) (ts : List Token)
    (acc : CycleAcc) :
    (ts.foldl (processToken now fail) acc).st.tokens
      = ts.foldl (tokUpd now fail) acc.st.tokens := by
  induction ts generalizing acc with
  | nil => rfl
  | cons t ts ih =>
    simp only [List.foldl_cons]
    rw [ih, processToken_st_tokens]

theorem foldl_processToken_users (now : Nat) (fail : Token → Bool) (ts : List Token)
    (acc : CycleAcc) :
    (ts.foldl (processToken now fail) acc).st.users
      = ts.foldl (usrUpd fail) acc.st.users := by
  induction ts generalizing acc with
  | nil => rfl
  | cons t ts ih =>
    simp only [List.foldl_cons]
    rw [ih, processToken_st_users]

theorem foldl_processToken_logs (now : Nat) (fail : Token → Bool) (ts : List Token)
    (acc : CycleAcc) :
    (ts.foldl (processToken now fail) acc).st.mining_logs = acc.st.mining_logs := by
  induction ts generalizing acc with
  | nil => rfl
  | cons t ts ih =>
    simp only [List.foldl_cons]
    rw [ih, processToken_st_logs]

theorem foldl_processToken_processed (now : Nat) (fail : Token → Bool) (ts : List Token)
    (acc : CycleAcc) :
    (ts.foldl (processToken now fail) acc).tokens_processed
      = acc.tokens_processed + (ts.filter (fun t => !fail t)).length := by
  induction ts generalizing acc with
  | nil => simp
  | cons t ts ih =>
    simp only [List.foldl_cons]
    rw [ih, processToken_processed, List.filter_cons]
    by_cases h : fail t
    · simp [h]
    · simp [h]
      omega

theorem foldl_processToken_distributed (now : Nat) (fail : Token → Bool) (ts : List Token)
    (acc : CycleAcc) :
    (ts.foldl (processToken now fail) acc).total_earnings_distributed
      = acc.total_earnings_distributed
        + ((ts.filter (fun t => !fail t)).map tokenEarning).sum := by
  induction ts generalizing acc with
  | nil => simp
  | cons t ts ih =>
    simp only [List.foldl_cons]
    rw [ih, processToken_distributed, List.filter_cons]
    by_cases h : fail t
    · simp [h]
    · simp [h, add_assoc]

theorem foldl_processToken_errors (now : Nat) (fail : Token → Bool) (ts : List Token)
    (acc : CycleAcc) :
    (ts.foldl (processToken now fail) acc).errors
      = acc.errors ++ (ts.filter (fun t => fail t)).map Token.token_id := by
  induction ts generalizing acc with
  | nil => simp
  | cons t ts ih =>
    simp only [List.foldl_cons]
    rw [ih, processToken_errors, List.filter_cons]
    by_cases h : fail t <;> simp [h]

/-- Token updates aimed at other ids leave the head of the collection alone. -/
theorem foldl_tokUpd_skip (now : Nat) (fail : Token → Bool) (x : Token) (xs ts : List Token)
    (h : ∀ t ∈ ts, t.token_id ≠ x.token_id) :
    ts.foldl (tokUpd now fail) (x :: xs) = x :: ts.foldl (tokUpd now fail) xs := by
  induction ts generalizing xs with
  | nil => rfl
  | cons t ts ih =>
    have hx : (x.token_id == t.token_id) = false :=
      beq_eq_false_iff_ne.mpr (Ne.symm (h t (List.mem_cons_self t ts)))
    simp only [List.foldl_cons]
    have hstep : tokUpd now fail (x :: xs) t = x :: tokUpd now fail xs t := by
      unfold tokUpd
      by_cases hf : fail t
      · rw [if_pos hf, if_pos hf]
      · rw [if_neg hf, if_neg hf,
          updateFirst_cons_neg (fun y => y.token_id == t.token_id) (minedToken now) x xs hx]
    rw [hstep, ih _ (fun a ha => h a (List.mem_cons_of_mem _ ha))]

/-- Folding the token updates of a cycle over the filtered snapshot acts
pointwise on the collection, provided token ids are distinct. -/
theorem foldl_tokUpd_filter (now : Nat) (fail : Token → Bool) (p : Token → Bool)
    (l : List Token) (hnd : (l.map Token.token_id).Nodup) :
    (l.filter p).foldl (tokUpd now fail) l
      = l.map (fun x => if p x && !fail x then minedToken now x else x) := by
  induction l with
  | nil => rfl
  | cons x xs ih =>
    simp only [List.map_cons, List.nodup_cons] at hnd
    obtain ⟨hx, hnd⟩ := hnd
    have hid : ∀ t ∈ xs.filter p, t.token_id ≠ x.token_id := by
      intro t htm he
      exact hx (he ▸ List.mem_map_of_mem Token.token_id (List.mem_of_mem_filter htm))
    by_cases hp : p x
    · rw [List.filter_cons_of_pos hp]
      simp only [List.foldl_cons]
      have hself : (x.token_id == x.token_id) = true := beq_self_eq_true _
      by_cases hf : fail x
      · have hstep : tokUpd now fail (x :: xs) x = x :: xs := by
          unfold tokUpd; rw [if_pos hf]
        rw [hstep, foldl_tokUpd_skip now fail x xs _ hid, ih hnd]
        simp [hp, hf]
      · have hstep : tokUpd now fail (x :: xs) x = minedToken now x :: xs := by
          unfold tokUpd
          rw [if_neg hf,
            updateFirst_cons_pos (fun y => y.token_id == x.token_id) (minedToken now) x xs hself]
        have hid2 : ∀ t ∈ xs.filter p, t.token_id ≠ (minedToken now x).token_id := by
          intro t htm; simpa using hid t htm
        rw [hstep, foldl_tokUpd_skip now fail _ xs _ hid2, ih hnd]
        simp [hp, hf]
    · rw [List.filter_cons_of_neg (by simpa using hp)]
      rw [foldl_tokUpd_skip now fail x xs _ hid, ih hnd]
      simp [hp]

/-- The tokens collection after one non-catastrophic cycle: every eligible
token whose update does not fail is mined, everything else is untouched. -/
theorem cycle_tokens (now : Nat) (fail : Token → Bool) (st : LedgerState)
    (hnd : (st.tokens.map Token.token_id).Nodup) :
    (process_mining_cycle now fail false st).tokens
      = st.tokens.map (fun x =>
          if eligible (admin_user_ids st.users) x && !fail x then minedToken now x else x) := by
  have h0 : (process_mining_cycle now fail false st).tokens
      = ((eligibleTokens st).foldl (processToken now fail)
          { st := st, tokens_processed := 0, total_earnings_distributed := 0,
            errors := [] }).st.tokens := rfl
  rw [h0, foldl_processToken_tokens]
  exact foldl_tokUpd_filter now fail _ st.tokens hnd

theorem ownerCredit_nil (fail : Token → Bool) (uid : Nat) : ownerCredit fail uid [] = 0 := rfl

theorem ownerCredit_cons (fail : Token → Bool) (uid : Nat) (t : Token) (ts : List Token) :
    ownerCredit fail uid (t :: ts)
      = (if !fail t && t.owner_id == uid then tokenEarning t else 0)
        + ownerCredit fail uid ts := by
  unfold ownerCredit
  rw [List.filter_cons]
  by_cases h : (!fail t && t.owner_id == uid) <;> simp [h]

theorem isEmpty_map {α β : Type} (f : α → β) (l : List α) :
    (l.map f).isEmpty = l.isEmpty := by
  cases l <;> rfl

/-- Folding the owner updates of a cycle credits every user with the sum of
the earnings of the non-failing eligible tokens they own, provided user ids
are distinct. -/
theorem foldl_usrUpd_map (fail : Token → Bool) (ts : List Token) :
    ∀ users : List User, (users.map User.user_id).Nodup →
      ts.foldl (usrUpd fail) users
        = users.map (fun u =>
            { u with total_earnings := u.total_earnings + ownerCredit fail u.user_id ts }) := by
  induction ts with
  | nil =>
    intro users _
    simp only [List.foldl_nil]
    have h0 : ∀ u ∈ users,
        ({ u with total_earnings := u.total_earnings + ownerCredit fail u.user_id [] } : User)
          = u := by
      intro u _
      simp [ownerCredit_nil]
    symm
    rw [List.map_congr_left h0]
    simp
  | cons t ts ih =>
    intro users hnd
    simp only [List.foldl_cons]
    by_cases hf : fail t
    · have h1 : usrUpd fail users t = users := by
        unfold usrUpd; rw [if_pos hf]
      rw [h1, ih users hnd]
      apply List.map_congr_left
      intro u _
      rw [ownerCredit_cons]
      simp [hf]
    · have h1 : usrUpd fail users t
          = users.map (fun u => if u.user_id == t.owner_id
              then { u with total_earnings := u.total_earnings + tokenEarning t } else u) := by
        unfold usrUpd
        rw [if_neg hf]
        exact updateFirst_eq_map User.user_id t.owner_id _ users hnd
      have hkeys : ((users.map (fun u => if u.user_id == t.owner_id
              then { u with total_earnings := u.total_earnings + tokenEarning t } else u)).map
            User.user_id) = users.map User.user_id := by
        rw [List.map_map]
        apply List.map_congr_left
        intro u _
        by_cases h : u.user_id = t.owner_id <;> simp [h]
      rw [h1, ih _ (by rw [hkeys]; exact hnd), List.map_map]
      apply List.map_congr_left
      intro u _
      simp only [Function.comp_apply]
      by_cases h : u.user_id = t.owner_id
      · rw [if_pos (beq_iff_eq.mpr h)]
        have hcond : (!fail t && t.owner_id == u.user_id) = true := by
          simp [hf, beq_iff_eq.mpr h.symm]
        rw [ownerCredit_cons, if_pos hcond]
        obtain ⟨uid, adm, te, town, bu⟩ := u
        simp only [User.mk.injEq, true_and, and_true]
        ring
      · rw [if_neg (by simp [h])]
        have hcond : (!fail t && t.owner_id == u.user_id) = false := by
          simp [beq_eq_false_iff_ne.mpr (fun he => h he.symm)]
        rw [ownerCredit_cons, if_neg (by simp [hcond])]
        simp

/-- Updating one user record without touching its id or admin flag leaves
the admin id list unchanged. -/
theorem admin_user_ids_updateFirst (p : User → Bool) (f : User → User)
    (hf : ∀ u, (f u).user_id = u.user_id ∧ (f u).is_admin = u.is_admin) (l : List User) :
    admin_user_ids (updateFirst p f l) = admin_user_ids l := by
  induction l with
  | nil => rfl
  | cons x xs ih =>
    by_cases h : p x
    · rw [updateFirst_cons_pos p f x xs h]
      unfold admin_user_ids
      rw [List.filter_cons, List.filter_cons, (hf x).2]
      by_cases ha : x.is_admin <;> simp [ha, (hf x).1]
    · rw [updateFirst_cons_neg p f x xs (by simpa using h)]
      unfold admin_user_ids at ih ⊢
      rw [List.filter_cons, List.filter_cons]
      by_cases ha : x.is_admin <;> simp [ha, ih]

/-- The per-token owner updates of a cycle never change the admin id list. -/
theorem foldl_usrUpd_admin_ids (fail : Token → Bool) (ts : List Token) :
    ∀ users : List User,
      admin_user_ids (ts.foldl (usrUpd fail) users) = admin_user_ids users := by
  induction ts with
  | nil => intro users; rfl
  | cons t ts ih =>
    intro users
    simp only [List.foldl_cons]
    rw [ih]
    unfold usrUpd
    by_cases hf : fail t
    · rw [if_pos hf]
    · rw [if_neg hf]
      exact admin_user_ids_updateFirst (fun u => u.user_id == t.owner_id)
        (fun u => { u with total_earnings := u.total_earnings + tokenEarning t })
        (fun u => ⟨rfl, rfl⟩) users

/-- The users collection after one non-catastrophic cycle, under distinct
user ids: each user gains the total credit of their tokens. -/
theorem cycle_users (now : Nat) (fail : Token → Bool) (st : LedgerState)
    (hnd : (st.users.map User.user_id).Nodup) :
    (process_mining_cycle now fail false st).users
      = st.users.map (fun u =>
          { u with total_earnings := u.total_earnings
              + ownerCredit fail u.user_id (eligibleTokens st) }) := by
  have h0 : (process_mining_cycle now fail false st).users
      = ((eligibleTokens st).foldl (processToken now fail)
          { st := st, tokens_processed := 0, total_earnings_distributed := 0,
            errors := [] }).st.users := rfl
  rw [h0, foldl_processToken_users]
  exact foldl_usrUpd_map fail (eligibleTokens st) st.users hnd

/-- No cycle invocation changes the set of admin user ids. -/
theorem cycle_admin_ids (now : Nat) (fail : Token → Bool) (cat : Bool) (st : LedgerState) :
    admin_user_ids (process_mining_cycle now fail cat st).users = admin_user_ids st.users := by
  cases cat with
  | true => rfl
  | false =>
    have h0 : (process_mining_cycle now fail false st).users
        = ((eligibleTokens st).foldl (processToken now fail)
            { st := st, tokens_processed := 0, total_earnings_distributed := 0,
              errors := [] }).st.users := rfl
    rw [h0, foldl_processToken_users]
    exact foldl_usrUpd_admin_ids fail (eligibleTokens st) st.users

/-- The mining log written by one non-catastrophic cycle, in terms of the
eligible snapshot and the injected failures. -/
theorem cycle_logs_false (now : Nat) (fail : Token → Bool) (st : LedgerState) :
    (process_mining_cycle now fail false st).mining_logs
      = st.mining_logs ++
        [{ tokens_processed := ((eligibleTokens st).filter (fun t => !fail t)).length
           total_earnings_distributed :=
             (((eligibleTokens st).filter (fun t => !fail t)).map tokenEarning).sum
           errors_count := ((eligibleTokens st).filter (fun t => fail t)).length
           status := if ((eligibleTokens st).filter (fun t => fail t)).isEmpty
             then "success" else "partial_success"
           error := none }] := by
  have h0 : (process_mining_cycle now fail false st).mining_logs
      = (((eligibleTokens st).foldl (processToken now fail)
            { st := st, tokens_processed := 0, total_earnings_distributed := 0,
              errors := [] }).st.mining_logs)
        ++ [{ tokens_processed := ((eligibleTokens st).foldl (processToken now fail)
                { st := st, tokens_processed := 0, total_earnings_distributed := 0,
                  errors := [] }).tokens_processed
              total_earnings_distributed := ((eligibleTokens st).foldl (processToken now fail)
                { st := st, tokens_processed := 0, total_earnings_distributed := 0,
                  errors := [] }).total_earnings_distributed
              errors_count := ((eligibleTokens st).foldl (processToken now fail)
                { st := st, tokens_processed := 0, total_earnings_distributed := 0,
                  errors := [] }).errors.length
              status := if ((eligibleTokens st).foldl (processToken now fail)
                  { st := st, tokens_processed := 0, total_earnings_distributed := 0,
                    errors := [] }).errors.isEmpty then "success" else "partial_success"
              error := none }] := rfl
  rw [h0, foldl_processToken_logs, foldl_processToken_processed,
    foldl_processToken_distributed, foldl_processToken_errors]
  simp only [List.nil_append, List.length_map, isEmpty_map, Nat.zero_add, zero_add]

/-- The catastrophic path appends exactly the failed log record. -/
theorem cycle_logs_true (now : Nat) (fail : Token → Bool) (st : LedgerState) :
    (process_mining_cycle now fail true st).mining_logs
      = st.mining_logs ++
        [{ tokens_processed := 0, total_earnings_distributed := 0, errors_count := 0,
           status := "failed", error := some "Critical mining error" }] := rfl

/-- Splitting a list by a Boolean predicate preserves its length. -/
theorem length_filter_split {α : Type} (p : α → Bool) (l : List α) :
    (l.filter p).length + (l.filter (fun a => !p a)).length = l.length := by
  induction l with
  | nil => rfl
  | cons x xs ih =>
    rw [List.filter_cons, List.filter_cons]
    by_cases h : p x
    · rw [if_pos h, if_neg (by simp [h])]
      simp only [List.length_cons]
      omega
    · rw [if_neg h, if_pos (by simp [h])]
      simp only [List.length_cons]
      omega

/-- Under distinct user ids, membership of an id in the admin id list is
exactly the admin flag of the user carrying that id. -/
theorem admin_ids_contains_iff (users : List User) (u : User)
    (hnd : (users.map User.user_id).Nodup) (hu : u ∈ users) :
    (admin_user_ids users).contains u.user_id = u.is_admin := by
  by_cases ha : u.is_admin
  · rw [ha]
    have hmem : u.user_id ∈ admin_user_ids users :=
      List.mem_map_of_mem _ (List.mem_filter.mpr ⟨hu, ha⟩)
    exact List.elem_iff.mpr hmem
  · have hb : u.is_admin = false := by simpa using ha
    rw [hb]
    by_contra hc
    have hmem : u.user_id ∈ admin_user_ids users := by
      have : (admin_user_ids users).contains u.user_id = true := by
        cases h : (admin_user_ids users).contains u.user_id
        · exact absurd h hc
        · rfl
      exact List.elem_iff.mp this
    unfold admin_user_ids at hmem
    rcases List.mem_map.mp hmem with ⟨v, hv, hvid⟩
    rcases List.mem_filter.mp hv with ⟨hvmem, hvadm⟩
    have : v = u := List.inj_on_of_nodup_map hnd hvmem hu hvid
    rw [this] at hvadm
    rw [hb] at hvadm
    exact Bool.false_ne_true hvadm

/-- A token that is ineligible (inactive or admin-owned) is bit-for-bit
unchanged by any sequence of accrual cycles. -/
theorem ineligible_unchanged (t : Token) :
    ∀ (envs : List CycleEnv) (st : LedgerState),
      (st.tokens.map Token.token_id).Nodup → t ∈ st.tokens →
      eligible (admin_user_ids st.users) t = false →
      findToken (runCycles envs st) t.token_id = some t := by
  intro envs
  induction envs with
  | nil =>
    intro st hnd hmem _
    exact find?_self_of_nodup Token.token_id st.tokens t hnd hmem
  | cons e envs ih =>
    intro st hnd hmem hne
    show findToken
      (runCycles envs (process_mining_cycle e.now e.tokenFail e.catastrophic st))
      t.token_id = some t
    rcases e with ⟨n, f, c⟩
    cases c with
    | true =>
      apply ih
      · exact hnd
      · exact hmem
      · rw [cycle_admin_ids]; exact hne
    | false =>
      have htoks := cycle_tokens n f st hnd
      have hkey : ∀ x : Token,
          ((fun x => if eligible (admin_user_ids st.users) x && !f x
            then minedToken n x else x) x).token_id = x.token_id := by
        intro x
        by_cases h : (eligible (admin_user_ids st.users) x && !f x) <;> simp [h]
      apply ih
      · show ((process_mining_cycle n f false st).tokens.map Token.token_id).Nodup
        rw [htoks, List.map_map]
        have hcong : st.tokens.map (Token.token_id ∘ fun x =>
            if eligible (admin_user_ids st.users) x && !f x then minedToken n x else x)
            = st.tokens.map Token.token_id :=
          List.map_congr_left (fun x _ => hkey x)
        rw [hcong]
        exact hnd
      · show t ∈ (process_mining_cycle n f false st).tokens
        rw [htoks]
        have hgt : (fun x => if eligible (admin_user_ids st.users) x && !f x
            then minedToken n x else x) t = t := by
          simp [hne]
        exact List.mem_map.mpr ⟨t, hmem, hgt⟩
      · rw [cycle_admin_ids]; exact hne

/-- After one non-catastrophic cycle, an eligible non-failing token is
found in exactly its mined form. -/
theorem cycle_findToken_mined (now : Nat) (fail : Token → Bool) (st : LedgerState)
    (hnd : (st.tokens.map Token.token_id).Nodup)
    (t : Token) (ht : t ∈ eligibleTokens st) (hf : fail t = false) :
    findToken (process_mining_cycle now fail false st) t.token_id
      = some (minedToken now t) := by
  have hmem : t ∈ st.tokens := List.mem_of_mem_filter ht
  have helig : eligible (admin_user_ids st.users) t = true := List.of_mem_filter ht
  unfold findToken
  rw [cycle_tokens now fail st hnd]
  have hkey : ∀ x : Token,
      ((fun x => if eligible (admin_user_ids st.users) x && !fail x
        then minedToken now x else x) x).token_id = x.token_id := by
    intro x
    by_cases h : (eligible (admin_user_ids st.users) x && !fail x) <;> simp [h]
  rw [find?_map_key Token.token_id _ hkey t.token_id,
    find?_self_of_nodup Token.token_id st.tokens t hnd hmem]
  have hg : (fun x => if eligible (admin_user_ids st.users) x && !fail x
      then minedToken now x else x) t = minedToken now t := by
    show (if eligible (admin_user_ids st.users) t && !fail t
      then minedToken now t else t) = minedToken now t
    rw [if_pos (by rw [helig, hf]; rfl)]
  exact congrArg some hg

/-- C1: every eligible token whose update does not fail is credited exactly
base_rate * 2 ^ boost_level with base_rate = 0.70 (a boost-level-3 token
earns 0.70 * 8), and exactly one mining-history entry carrying that amount
and the boost level is appended. -/
theorem C1_eligible_token_earning (now : Nat) (fail : Token → Bool) (st : LedgerState)
    (hnd : (st.tokens.map Token.token_id).Nodup)
    (t : Token) (ht : t ∈ eligibleTokens st) (hf : fail t = false) :
    findToken (process_mining_cycle now fail false st) t.token_id
      = some { t with
          total_earnings := t.total_earnings + (7 / 10) * 2 ^ t.boost_level
          last_mining := now
          mining_history := t.mining_history ++
            [{ amount := (7 / 10) * 2 ^ t.boost_level, timestamp := now,
               boost_level := t.boost_level }] } :=
  cycle_findToken_mined now fail st hnd t ht hf

/-- Witness for C1: in a concrete ledger with one eligible boost-level-3
token, one cycle credits it 0.70 * 8. -/
theorem C1_eligible_token_earning_witness :
    findToken (process_mining_cycle 5 (fun _ => false) false C1st) (exTok 10 3).token_id
      = some { exTok 10 3 with
          total_earnings := (exTok 10 3).total_earnings + (7 / 10) * 2 ^ (exTok 10 3).boost_level
          last_mining := 5
          mining_history := (exTok 10 3).mining_history ++
            [{ amount := (7 / 10) * 2 ^ (exTok 10 3).boost_level, timestamp := 5,
               boost_level := (exTok 10 3).boost_level }] } :=
  C1_eligible_token_earning 5 (fun _ => false) C1st (by decide) (exTok 10 3) (by decide) rfl

/-- C2: a token is selected for a cycle iff it is active and its owner is
not an admin; consequently an inactive or admin-owned token is bit-for-bit
unchanged — no earnings, no mining-history entry — by any sequence of
cycles. -/
theorem C2_eligibility_invariant (st : LedgerState) (t : Token) (u : User)
    (hndu : (st.users.map User.user_id).Nodup)
    (hndt : (st.tokens.map Token.token_id).Nodup)
    (hu : u ∈ st.users) (hown : u.user_id = t.owner_id) :
    (t ∈ eligibleTokens st ↔ (t ∈ st.tokens ∧ t.active = true ∧ u.is_admin = false))
    ∧ (t ∈ st.tokens → (t.active = false ∨ u.is_admin = true) →
        ∀ envs : List CycleEnv, findToken (runCycles envs st) t.token_id = some t) := by
  have hcont : (admin_user_ids st.users).contains t.owner_id = u.is_admin := by
    rw [← hown]
    exact admin_ids_contains_iff st.users u hndu hu
  constructor
  · constructor
    · intro h
      have hmem := List.mem_of_mem_filter h
      have helig := List.of_mem_filter h
      unfold eligible at helig
      rw [Bool.and_eq_true] at helig
      refine ⟨hmem, helig.1, ?_⟩
      rw [← hcont]
      rcases helig with ⟨_, h2⟩
      cases hcase : (admin_user_ids st.users).contains t.owner_id
      · rfl
      · rw [hcase] at h2
        exact absurd h2 (by simp)
    · rintro ⟨hmem, hact, hadm⟩
      refine List.mem_filter.mpr ⟨hmem, ?_⟩
      unfold eligible
      rw [hact, hcont.trans hadm]
      rfl
  · intro hmem hbad envs
    apply ineligible_unchanged t envs st hndt hmem
    unfold eligible
    rcases hbad with hb | hb
    · rw [hb]
      rfl
    · rw [hcont.trans hb]
      simp

/-- Witness for C2: the inactive token of `C2st` is not selected and
survives a cycle sequence (one clean cycle, one with a failure injected on
token 10, one catastrophic) untouched. -/
theorem C2_eligibility_invariant_witness :
    (inactiveTok ∈ eligibleTokens C2st
      ↔ (inactiveTok ∈ C2st.tokens ∧ inactiveTok.active = true ∧ exOwner.is_admin = false))
    ∧ findToken (runCycles
        [⟨0, fun _ => false, false⟩, ⟨9, fun x => x.token_id == 10, false⟩,
         ⟨11, fun _ => false, true⟩] C2st) inactiveTok.token_id = some inactiveTok := by
  have h := C2_eligibility_invariant C2st inactiveTok exOwner (by decide) (by decide)
    (by decide) (by decide)
  exact ⟨h.1, h.2 (by decide) (Or.inl rfl) _⟩

/-- C3 as stated fails on the code: the owner update is one increment per
token, so a user owning two eligible tokens gains the sum of both credits,
which differs from the amount credited to either single token. In `C3st`
user 1 owns tokens 10 and 11, both at boost level 0: after one failure-free
cycle the user gained 1.40 while token 10 was credited 0.70. -/
theorem C3_counterexample :
    (findUser C3st 1).map User.total_earnings = some 0
    ∧ (findToken C3st 10).map Token.total_earnings = some 0
    ∧ (findUser (process_mining_cycle 0 (fun _ => false) false C3st) 1).map User.total_earnings
        = some (7 / 5)
    ∧ (findToken (process_mining_cycle 0 (fun _ => false) false C3st) 10).map
        Token.total_earnings = some (7 / 10)
    ∧ (7 / 5 : Money) - 0 ≠ (7 / 10 : Money) - 0 := by
  refine ⟨rfl, rfl, ?_, ?_, by norm_num⟩
  · have h := cycle_users 0 (fun _ => false) C3st (by decide)
    unfold findUser
    rw [h]
    norm_num [C3st, exOwner, exTok, eligibleTokens, eligible, admin_user_ids, ownerCredit,
      tokenEarning, base_earning, List.filter, List.find?, updateFirst]
  · have h := cycle_findToken_mined 0 (fun _ => false) C3st (by decide) (exTok 10 0)
      (by decide) rfl
    have hid : (exTok 10 0).token_id = 10 := rfl
    rw [hid] at h
    rw [h]
    norm_num [minedToken, exTok, tokenEarning, base_earning]

/-- C3 (amended): after one failure-free-or-not cycle, each user total
rises by exactly the sum of the amounts credited to the eligible
non-failing tokens they own; when the user owns exactly one such token the
rise equals exactly that token credit. -/
theorem C3_owner_mirroring (now : Nat) (fail : Token → Bool) (st : LedgerState)
    (hndu : (st.users.map User.user_id).Nodup) (u : User) (hu : u ∈ st.users) :
    findUser (process_mining_cycle now fail false st) u.user_id
      = some { u with total_earnings := u.total_earnings
          + ownerCredit fail u.user_id (eligibleTokens st) }
    ∧ (∀ t : Token,
        (eligibleTokens st).filter (fun x => !fail x && x.owner_id == u.user_id) = [t] →
        findUser (process_mining_cycle now fail false st) u.user_id
          = some { u with total_earnings := u.total_earnings + tokenEarning t }) := by
  have hmain : findUser (process_mining_cycle now fail false st) u.user_id
      = some { u with total_earnings := u.total_earnings
          + ownerCredit fail u.user_id (eligibleTokens st) } := by
    unfold findUser
    rw [cycle_users now fail st hndu]
    rw [find?_map_key User.user_id
        (fun v => { v with
          total_earnings := v.total_earnings + ownerCredit fail v.user_id (eligibleTokens st) })
        (fun x => rfl) u.user_id,
      find?_self_of_nodup User.user_id st.users u hndu hu]
    rfl
  refine ⟨hmain, ?_⟩
  intro t ht
  rw [hmain]
  have hsum : ownerCredit fail u.user_id (eligibleTokens st) = tokenEarning t := by
    unfold ownerCredit
    rw [ht]
    simp
  rw [hsum]

/-- Witness for C3 (amended), at the two-token state used for the
counterexample: the owner gains the credit of both owned tokens. -/
theorem C3_owner_mirroring_witness :
    findUser (process_mining_cycle 0 (fun _ => false) false C3st) exOwner.user_id
      = some { exOwner with
          total_earnings := exOwner.total_earnings +
            ownerCredit (fun _ => false) exOwner.user_id (eligibleTokens C3st) } :=
  (C3_owner_mirroring 0 (fun _ => false) C3st (by decide) exOwner (by decide)).1

/-- C4: if exactly one eligible token fails, the others are still mined,
and the single log of the cycle reports tokens_processed = N - 1, one
error, and status partial_success, which is not success; in general the
status is success exactly when no per-token error was recorded. -/
theorem C4_partial_failure_isolation (now : Nat) (fail : Token → Bool) (st : LedgerState)
    (hndt : (st.tokens.map Token.token_id).Nodup)
    (hone : ((eligibleTokens st).filter (fun t => fail t)).length = 1) :
    (∃ log : MiningLog,
      lastLog (process_mining_cycle now fail false st) = some log
      ∧ log.tokens_processed = (eligibleTokens st).length - 1
      ∧ log.errors_count = 1
      ∧ log.status = "partial_success"
      ∧ log.status ≠ "success")
    ∧ (∀ t ∈ eligibleTokens st, fail t = false →
        findToken (process_mining_cycle now fail false st) t.token_id
          = some (minedToken now t))
    ∧ (∀ fail2 : Token → Bool, ∃ log : MiningLog,
        lastLog (process_mining_cycle now fail2 false st) = some log
        ∧ (log.status = "success" ↔ log.errors_count = 0)) := by
  have hsplit := length_filter_split (fun t => fail t) (eligibleTokens st)
  have hempty : ((eligibleTokens st).filter (fun t => fail t)).isEmpty = false := by
    rcases hlist : (eligibleTokens st).filter (fun t => fail t) with _ | ⟨a, rest⟩
    · rw [hlist] at hone
      simp at hone
    · rfl
  have hlog : lastLog (process_mining_cycle now fail false st)
      = some { tokens_processed := ((eligibleTokens st).filter (fun t => !fail t)).length
               total_earnings_distributed :=
                 (((eligibleTokens st).filter (fun t => !fail t)).map tokenEarning).sum
               errors_count := ((eligibleTokens st).filter (fun t => fail t)).length
               status := if ((eligibleTokens st).filter (fun t => fail t)).isEmpty
                 then "success" else "partial_success"
               error := none } := by
    unfold lastLog
    rw [cycle_logs_false]
    exact List.getLast?_concat _
  refine ⟨⟨_, hlog, ?_, hone, ?_, ?_⟩, ?_, ?_⟩
  · show ((eligibleTokens st).filter (fun t => !fail t)).length
      = (eligibleTokens st).length - 1
    omega
  · show (if ((eligibleTokens st).filter (fun t => fail t)).isEmpty
      then "success" else "partial_success") = "partial_success"
    rw [hempty]
    rfl
  · show (if ((eligibleTokens st).filter (fun t => fail t)).isEmpty
      then "success" else "partial_success") ≠ "success"
    rw [hempty]
    decide
  · intro t ht hf
    exact cycle_findToken_mined now fail st hndt t ht hf
  · intro fail2
    have hlog2 : lastLog (process_mining_cycle now fail2 false st)
        = some { tokens_processed := ((eligibleTokens st).filter (fun t => !fail2 t)).length
                 total_earnings_distributed :=
                   (((eligibleTokens st).filter (fun t => !fail2 t)).map tokenEarning).sum
                 errors_count := ((eligibleTokens st).filter (fun t => fail2 t)).length
                 status := if ((eligibleTokens st).filter (fun t => fail2 t)).isEmpty
                   then "success" else "partial_success"
                 error := none } := by
      unfold lastLog
      rw [cycle_logs_false]
      exact List.getLast?_concat _
    refine ⟨_, hlog2, ?_⟩
    show (if ((eligibleTokens st).filter (fun t => fail2 t)).isEmpty
        then "success" else "partial_success") = "success"
      ↔ ((eligibleTokens st).filter (fun t => fail2 t)).length = 0
    rcases hlist : (eligibleTokens st).filter (fun t => fail2 t) with _ | ⟨a, rest⟩
    · simp
    · simp

/-- Witness for C4: three eligible tokens, a failure injected on token 11;
the log reports 2 processed, 1 error, partial_success. -/
theorem C4_partial_failure_isolation_witness :
    ∃ log : MiningLog,
      lastLog (process_mining_cycle 0 (fun x => x.token_id == 11) false C4st) = some log
      ∧ log.tokens_processed = (eligibleTokens C4st).length - 1
      ∧ log.errors_count = 1
      ∧ log.status = "partial_success"
      ∧ log.status ≠ "success" :=
  (C4_partial_failure_isolation 0 (fun x => x.token_id == 11) C4st
    (by decide) (by decide)).1

/-- C5: every cycle invocation, non-catastrophic or catastrophic, appends
exactly one mining log; the catastrophic one is a failed record with zero
counts and an error description. -/
theorem C5_audit_completeness (now : Nat) (fail : Token → Bool) (cat : Bool)
    (st : LedgerState) :
    (process_mining_cycle now fail cat st).mining_logs.length
      = st.mining_logs.length + 1
    ∧ (∃ log : MiningLog,
        lastLog (process_mining_cycle now fail true st) = some log
        ∧ log.status = "failed"
        ∧ log.tokens_processed = 0
        ∧ log.total_earnings_distributed = 0
        ∧ log.error.isSome = true) := by
  constructor
  · cases cat with
    | true =>
      rw [cycle_logs_true]
      simp
    | false =>
      rw [cycle_logs_false]
      simp
  · have hlog : lastLog (process_mining_cycle now fail true st)
        = some { tokens_processed := 0, total_earnings_distributed := 0, errors_count := 0,
                 status := "failed", error := some "Critical mining error" } := by
      unfold lastLog
      rw [cycle_logs_true]
      exact List.getLast?_concat _
    exact ⟨_, hlog, rfl, rfl, rfl, rfl⟩

/-- C6 as stated fails on the code: a missing owner record raises nothing —
the owner `update_one` simply matches zero documents — so the token is
counted among the successfully processed tokens and no error is recorded.
In `C6st` the only token belongs to absent user 99, yet the cycle log
shows tokens_processed = 1, zero errors and status success, and no
notification is created. -/
theorem C6_counterexample :
    findUser C6st 99 = none
    ∧ (lastLog (process_mining_cycle 0 (fun _ => false) false C6st)).map
        MiningLog.tokens_processed = some 1
    ∧ (lastLog (process_mining_cycle 0 (fun _ => false) false C6st)).map
        MiningLog.errors_count = some 0
    ∧ (lastLog (process_mining_cycle 0 (fun _ => false) false C6st)).map
        MiningLog.status = some "success"
    ∧ (process_mining_cycle 0 (fun _ => false) false C6st).notifications = [] := by
  exact ⟨rfl, rfl, rfl, rfl, rfl⟩

/-- C6 (amended): a missing owner record is not a per-token error.  The
token update itself succeeds, so the token is mined and counted in
tokens_processed; the errors of the cycle count only the injected store
failures; and the owner update matches nothing, so no user record appears
or changes for the missing id. -/
theorem C6_missing_owner (now : Nat) (fail : Token → Bool) (st : LedgerState)
    (hndt : (st.tokens.map Token.token_id).Nodup)
    (hndu : (st.users.map User.user_id).Nodup)
    (t : Token) (ht : t ∈ eligibleTokens st) (hf : fail t = false)
    (hmiss : findUser st t.owner_id = none) :
    findToken (process_mining_cycle now fail false st) t.token_id
      = some (minedToken now t)
    ∧ findUser (process_mining_cycle now fail false st) t.owner_id = none
    ∧ ∃ log : MiningLog,
        lastLog (process_mining_cycle now fail false st) = some log
        ∧ log.tokens_processed = ((eligibleTokens st).filter (fun x => !fail x)).length
        ∧ log.errors_count = ((eligibleTokens st).filter (fun x => fail x)).length := by
  refine ⟨cycle_findToken_mined now fail st hndt t ht hf, ?_, ?_⟩
  · unfold findUser
    rw [cycle_users now fail st hndu]
    rw [find?_map_key User.user_id
        (fun v => { v with
          total_earnings := v.total_earnings + ownerCredit fail v.user_id (eligibleTokens st) })
        (fun x => rfl) t.owner_id]
    unfold findUser at hmiss
    rw [hmiss]
    rfl
  · have hlog : lastLog (process_mining_cycle now fail false st)
        = some { tokens_processed := ((eligibleTokens st).filter (fun x => !fail x)).length
                 total_earnings_distributed :=
                   (((eligibleTokens st).filter (fun x => !fail x)).map tokenEarning).sum
                 errors_count := ((eligibleTokens st).filter (fun x => fail x)).length
                 status := if ((eligibleTokens st).filter (fun x => fail x)).isEmpty
                   then "success" else "partial_success"
                 error := none } := by
      unfold lastLog
      rw [cycle_logs_false]
      exact List.getLast?_concat _
    exact ⟨_, hlog, rfl, rfl⟩

/-- Witness for C6 (amended): the orphan token of `C6st` is mined. -/
theorem C6_missing_owner_witness :
    findToken (process_mining_cycle 0 (fun _ => false) false C6st) orphanTok.token_id
      = some (minedToken 0 orphanTok) :=
  (C6_missing_owner 0 (fun _ => false) C6st (by decide) (by decide) orphanTok
    (by decide) rfl rfl).1

/-- C7: the scheduler stays Running through any sequence of normal and
erroring cycles, sleeping 7200 seconds after a normal cycle and 600
seconds (within the 5 to 10 minute range) after an error; only
cancellation or an explicit stop request ends the loop, landing in the
Stopped state. -/
theorem C7_scheduler_resilience (evs : List SchedEvent)
    (h : ∀ e ∈ evs, e ≠ SchedEvent.cancelled ∧ e ≠ SchedEvent.stopRequest) :
    schedulerRun evs = SchedState.Running
    ∧ schedulerStep SchedState.Running SchedEvent.cycleOk = (SchedState.Running, 7200)
    ∧ schedulerStep SchedState.Running SchedEvent.cycleError = (SchedState.Running, 600)
    ∧ 300 ≤ error_backoff ∧ error_backoff ≤ 600
    ∧ (∀ pre : List SchedEvent,
        schedulerRun (pre ++ [SchedEvent.cancelled]) = SchedState.Stopped)
    ∧ (∀ pre : List SchedEvent,
        schedulerRun (pre ++ [SchedEvent.stopRequest]) = SchedState.Stopped) := by
  have hrun : ∀ l : List SchedEvent,
      (∀ e ∈ l, e ≠ SchedEvent.cancelled ∧ e ≠ SchedEvent.stopRequest) →
      l.foldl (fun s e => (schedulerStep s e).1) SchedState.Running
        = SchedState.Running := by
    intro l
    induction l with
    | nil =>
      intro _
      rfl
    | cons e l ih =>
      intro hl
      rcases hl e (List.mem_cons_self e l) with ⟨h1, h2⟩
      have hstep : (schedulerStep SchedState.Running e).1 = SchedState.Running := by
        cases e
        · rfl
        · rfl
        · exact absurd rfl h1
        · exact absurd rfl h2
      rw [List.foldl_cons, hstep]
      exact ih (fun x hx => hl x (List.mem_cons_of_mem _ hx))
  refine ⟨hrun evs h, rfl, rfl, by decide, by decide, ?_, ?_⟩
  · intro pre
    unfold schedulerRun
    rw [List.foldl_append]
    generalize List.foldl (fun s e => (schedulerStep s e).1) SchedState.Running pre = s
    cases s
    · rfl
    · rfl
  · intro pre
    unfold schedulerRun
    rw [List.foldl_append]
    generalize List.foldl (fun s e => (schedulerStep s e).1) SchedState.Running pre = s
    cases s
    · rfl
    · rfl

/-- Witness for C7: a run of one normal cycle, one erroring cycle and one
normal cycle leaves the scheduler Running. -/
theorem C7_scheduler_resilience_witness :
    schedulerRun [SchedEvent.cycleOk, SchedEvent.cycleError, SchedEvent.cycleOk]
      = SchedState.Running :=
  (C7_scheduler_resilience [SchedEvent.cycleOk, SchedEvent.cycleError, SchedEvent.cycleOk]
    (by decide)).1

/-- C8: the boost price at the payment boundary is 3.0 * 2 ^ boost_level,
the accrual earning is 0.70 * 2 ^ boost_level — the same exponential — so
the price-to-earning ratio is the constant 30 / 7 at every level. -/
theorem C8_constant_payback (b : Nat) :
    boostPrice b = 3 * 2 ^ b
    ∧ earningAt b = (7 / 10) * 2 ^ b
    ∧ (∀ t : Token, tokenEarning t = earningAt t.boost_level)
    ∧ boostPrice b / earningAt b = 30 / 7
    ∧ (∀ c : Nat, boostPrice c / earningAt c = boostPrice b / earningAt b) := by
  have hratio : ∀ c : Nat, boostPrice c / earningAt c = 30 / 7 := by
    intro c
    unfold boostPrice earningAt base_earning
    have h2 : (2 : Money) ^ c ≠ 0 := pow_ne_zero c (by norm_num)
    rw [div_eq_div_iff (by positivity) (by norm_num)]
    ring
  exact ⟨rfl, rfl, fun t => rfl, hratio b,
    fun c => (hratio c).trans (hratio b).symm⟩

theorem tokenInv_minedToken (now : Nat) (t : Token) (h : tokenInv t) :
    tokenInv (minedToken now t) := by
  unfold tokenInv at h
  unfold tokenInv minedToken
  simp only [List.map_append, List.sum_append, List.map_cons, List.map_nil,
    List.sum_cons, List.sum_nil]
  rw [h]
  ring

theorem tokenInv_boostedToken (now : Nat) (cst : Money) (bt : String) (t : Token)
    (h : tokenInv t) : tokenInv (boostedToken now cst bt t) := h

theorem tokenInv_updateFirst (p : Token → Bool) (f : Token → Token)
    (hf : ∀ x, tokenInv x → tokenInv (f x)) (l : List Token)
    (hl : ∀ x ∈ l, tokenInv x) :
    ∀ x ∈ updateFirst p f l, tokenInv x := by
  induction l with
  | nil =>
    intro x hx
    cases hx
  | cons a as ih =>
    intro x hx
    by_cases h : p a
    · rw [updateFirst_cons_pos p f a as h] at hx
      rcases List.mem_cons.mp hx with rfl | hx2
      · exact hf a (hl a (List.mem_cons_self a as))
      · exact hl x (List.mem_cons_of_mem _ hx2)
    · rw [updateFirst_cons_neg p f a as (by simpa using h)] at hx
      rcases List.mem_cons.mp hx with rfl | hx2
      · exact hl x (List.mem_cons_self x as)
      · exact ih (fun y hy => hl y (List.mem_cons_of_mem _ hy)) x hx2

theorem tokenInv_foldl_tokUpd (now : Nat) (fail : Token → Bool) (ts : List Token) :
    ∀ l : List Token, (∀ x ∈ l, tokenInv x) →
      ∀ x ∈ ts.foldl (tokUpd now fail) l, tokenInv x := by
  induction ts with
  | nil =>
    intro l hl
    exact hl
  | cons t ts ih =>
    intro l hl
    simp only [List.foldl_cons]
    apply ih
    unfold tokUpd
    by_cases hf : fail t
    · rw [if_pos hf]
      exact hl
    · rw [if_neg hf]
      exact tokenInv_updateFirst _ _ (fun x hx => tokenInv_minedToken now x hx) l hl

/-- C9: a token total_earnings always equals the sum of its mining-history
amounts.  All three creation paths start both at zero; the accrual update
adds the earning and pushes the matching entry in one update; paid and
admin boosts touch only boost_level and boost_history.  Consequently the
invariant holds for every stored token after any of these operations. -/
theorem C9_history_sum_invariant (t : Token) (hinv : tokenInv t)
    (now tid oid uid tkid : Nat) (nm : String) (c amt : Money) (bt : String)
    (fail : Token → Bool) (cat : Bool) (st : LedgerState)
    (hall : ∀ x ∈ st.tokens, tokenInv x) :
    tokenInv (starterToken tid oid now)
    ∧ tokenInv (purchasedToken tid oid nm now)
    ∧ tokenInv (adminGrantedToken tid oid nm now)
    ∧ tokenInv (minedToken now t)
    ∧ tokenInv (boostedToken now c bt t)
    ∧ (∀ x ∈ (process_mining_cycle now fail cat st).tokens, tokenInv x)
    ∧ (∀ x ∈ (create_first_token tid oid now st).tokens, tokenInv x)
    ∧ (∀ x ∈ (process_token_boost now uid tkid amt st).tokens, tokenInv x)
    ∧ (∀ x ∈ (admin_boost_user_token now tkid st).tokens, tokenInv x) := by
  refine ⟨rfl, rfl, rfl, tokenInv_minedToken now t hinv,
    tokenInv_boostedToken now c bt t hinv, ?_, ?_, ?_, ?_⟩
  · cases cat with
    | true => exact hall
    | false =>
      intro x hx
      have h0 : (process_mining_cycle now fail false st).tokens
          = ((eligibleTokens st).foldl (processToken now fail)
              { st := st, tokens_processed := 0, total_earnings_distributed := 0,
                errors := [] }).st.tokens := rfl
      rw [h0, foldl_processToken_tokens] at hx
      exact tokenInv_foldl_tokUpd now fail (eligibleTokens st) st.tokens hall x hx
  · intro x hx
    rcases List.mem_append.mp hx with hx2 | hx2
    · exact hall x hx2
    · rcases List.mem_singleton.mp hx2 with rfl
      rfl
  · intro x hx
    unfold process_token_boost at hx
    cases hfind : st.tokens.find?
        (fun t => t.token_id == tkid && t.owner_id == uid) with
    | none =>
      simp only [hfind] at hx
      exact hall x hx
    | some tok =>
      simp only [hfind] at hx
      exact tokenInv_updateFirst _ _
        (fun y hy => tokenInv_boostedToken now amt "paid" y hy) st.tokens hall x hx
  · intro x hx
    unfold admin_boost_user_token at hx
    cases hfind : st.tokens.find? (fun t => t.token_id == tkid) with
    | none =>
      simp only [hfind] at hx
      exact hall x hx
    | some tok =>
      simp only [hfind] at hx
      cases hfind2 : st.users.find? (fun u => u.user_id == tok.owner_id) with
      | none =>
        simp only [hfind2] at hx
        exact hall x hx
      | some owner =>
        simp only [hfind2] at hx
        by_cases hadm : owner.is_admin
        · rw [if_pos hadm] at hx
          exact hall x hx
        · rw [if_neg hadm] at hx
          exact tokenInv_updateFirst _ _
            (fun y hy => tokenInv_boostedToken now 0 "admin_granted" y hy)
            st.tokens hall x hx

/-- Witness for C9: the invariant holds for the mined and for the boosted
form of a concrete token already carrying one mining event. -/
theorem C9_history_sum_invariant_witness :
    tokenInv (minedToken 7 histTok) ∧ tokenInv (boostedToken 7 3 "paid" histTok) := by
  have hinv : tokenInv histTok := by
    simp [tokenInv, histTok, exTok]
  have h := C9_history_sum_invariant histTok hinv 7 50 1 1 40 "ProfitToken #2" 3 5 "paid"
    (fun _ => false) false C9st
    (by
      intro x hx
      rcases List.mem_singleton.mp hx with rfl
      exact hinv)
  exact ⟨h.2.2.2.1, h.2.2.2.2.1⟩

/-- C10: in every cycle that reaches the per-token loop, each eligible
token either adds one to tokens_processed or one entry to the error list,
so the two counts sum to the size of the eligible snapshot, and the
distributed total is the sum of the earnings of the processed tokens. -/
theorem C10_cycle_conservation (now : Nat) (fail : Token → Bool) (st : LedgerState) :
    ∃ log : MiningLog,
      lastLog (process_mining_cycle now fail false st) = some log
      ∧ log.tokens_processed + log.errors_count = (eligibleTokens st).length
      ∧ log.total_earnings_distributed
          = (((eligibleTokens st).filter (fun t => !fail t)).map tokenEarning).sum := by
  have hlog : lastLog (process_mining_cycle now fail false st)
      = some { tokens_processed := ((eligibleTokens st).filter (fun t => !fail t)).length
               total_earnings_distributed :=
                 (((eligibleTokens st).filter (fun t => !fail t)).map tokenEarning).sum
               errors_count := ((eligibleTokens st).filter (fun t => fail t)).length
               status := if ((eligibleTokens st).filter (fun t => fail t)).isEmpty
                 then "success" else "partial_success"
               error := none } := by
    unfold lastLog
    rw [cycle_logs_false]
    exact List.getLast?_concat _
  refine ⟨_, hlog, ?_, rfl⟩
  have hsplit := length_filter_split (fun t => fail t) (eligibleTokens st)
  show ((eligibleTokens st).filter (fun t => !fail t)).length
      + ((eligibleTokens st).filter (fun t => fail t)).length
      = (eligibleTokens st).length
  omega

end ProfitPilot
